import Mathlib

/-!
Verification of the StudyHub search/file-service core
(`backend/app/services/search_service.py`, `backend/app/services/file_service.py`).

Python strings are modelled as `List Char` (sequences of Unicode codepoints).
Python's `max(0, a - b)` on ints coincides with truncated subtraction on `Nat`.
Case-insensitive comparison (`str.lower`, `re.IGNORECASE`) is modelled by ASCII
lowercasing (`lowerC`): every case-sensitive input exercised here is ASCII, and
Hebrew letters have no case.  Python whitespace (`str.strip`, regex `\s`) is
modelled by ASCII whitespace; no input considered here contains non-ASCII
whitespace.
-/

/-- Sequence of Unicode codepoints, the model of a Python `str`. -/
abbrev Str := List Char

/-- ASCII lowercasing of one character (model of `str.lower` per character). -/
def lowerC (c : Char) : Char :=
  if 'A' ≤ c ∧ c ≤ 'Z' then Char.ofNat (c.toNat + 32) else c

/-- Lowercase a whole string. -/
def lowerS (s : Str) : Str := s.map lowerC

/-- ASCII whitespace, the model of the characters removed by `str.strip` and
matched by the regex class `\s`. -/
def isWs (c : Char) : Bool :=
  c = ' ' || c = '\t' || c = '\n' || c = '\r' || c.toNat = 0x0B || c.toNat = 0x0C

/-- Python `str.strip()`: remove leading and trailing whitespace. -/
def strip (s : Str) : Str :=
  ((s.dropWhile isWs).reverse.dropWhile isWs).reverse

/-- Index of the leftmost occurrence of `needle` as a contiguous sublist of the
haystack (`re.search` with an escaped pattern / `str.find`). -/
def findSub (needle : Str) : Str → Option Nat
  | [] => if needle.isPrefixOf ([] : Str) then some 0 else none
  | c :: rest =>
      if needle.isPrefixOf (c :: rest) then some 0
      else (findSub needle rest).map (· + 1)

/-- Index of the first case-insensitive occurrence of `term` in `text`
(`re.compile(re.escape(term), re.IGNORECASE).search(text)`).  The returned
index is valid in `text` itself because lowercasing preserves length. -/
def ciFind (text term : Str) : Option Nat :=
  findSub (lowerS term) (lowerS text)

/-- `term.lower() in text.lower()`: case-insensitive substring test. -/
def containsCI (text term : Str) : Bool :=
  (ciFind text term).isSome

/-- The three-dot ellipsis appended/prepended to snippets. -/
def dots : Str := ['.', '.', '.']

/-- One step of `pattern.sub(lambda m: f"**{m.group(0)}**", s)` for the
case-insensitive literal pattern `term`: scan left to right, wrap each
non-overlapping occurrence in `**` markers and resume after it.  The fuel
argument bounds the scan; each step consumes at least one character, so
fuel `s.length` (as supplied by `highlightAll`) is never exhausted. -/
def highlightFuel (term : Str) : Nat → Str → Str
  | _, [] => []
  | 0, s => s
  | fuel + 1, c :: rest =>
      if (lowerS term).isPrefixOf (lowerS (c :: rest)) then
        ['*', '*'] ++ (c :: rest).take term.length ++ ['*', '*'] ++
          highlightFuel term fuel ((c :: rest).drop term.length)
      else
        c :: highlightFuel term fuel rest

/-- `pattern.sub(lambda m: f"**{m.group(0)}**", snippet)`. -/
def highlightAll (term s : Str) : Str := highlightFuel term s.length s

/-- `SearchService.generate_snippet` (search_service.py lines 16-65),
translated clause by clause: empty guard, case-insensitive first match,
window `[start_pos - context_length, end_pos + context_length]` clamped to
the text, ellipses when the window is not flush with an end, highlighting of
every case-insensitive occurrence inside the window, final `strip`. -/
def generate_snippet (text search_term : Str) (context_length : Nat) : Str :=
  if text = [] ∨ search_term = [] then []
  else
    match ciFind text search_term with
    | none =>
        -- no match: first 2*context_length characters, stripped,
        -- "..." appended iff the text was longer
        let snippet := strip (text.take (context_length * 2))
        if context_length * 2 < text.length then snippet ++ dots else snippet
    | some start_pos =>
        let end_pos := start_pos + search_term.length
        let snippet_start := start_pos - context_length
        let snippet_end := min text.length (end_pos + context_length)
        let snippet := (text.take snippet_end).drop snippet_start
        let snippet := if 0 < snippet_start then dots ++ snippet else snippet
        let snippet := if snippet_end < text.length then snippet ++ dots else snippet
        strip (highlightAll search_term snippet)

/-- In-memory model of a row of the `materials` table together with the two
denormalized values read off the ORM relationships (`material.course.course_name`
and `material.uploader.username`, `none` when the relationship is absent).
Only the columns `search_materials` reads are modelled; `title`, `material_type`
and `course_id` are `NOT NULL` in the schema, the text fields are nullable.
Timestamps and ratings are modelled as integers — only their ordering is ever
used. -/
structure Material where
  id : Nat
  title : Str
  description : Option Str
  material_type : Str
  file_name : Option Str
  file_content_text : Option Str
  course_id : Nat
  created_at : Int
  average_rating : Int
  course_name : Option Str
  uploader_username : Option Str
deriving DecidableEq

/-- Model of the `SearchResult` pydantic schema (schemas/search.py). -/
structure SearchResult where
  material_id : Nat
  title : Str
  material_type : Str
  course_name : Str
  course_id : Nat
  uploader_username : Str
  snippet : Str
  match_type : Str
  created_at : Int
deriving DecidableEq

/-- Model of `field ILIKE '%term%'` on a nullable column: a NULL column never
matches; otherwise the test is case-insensitive containment.  (The code builds
the pattern as `f"%{search_term}%"` without escaping; for terms free of the SQL
wildcards `%` and `_` — every input considered here — ILIKE containment is
exactly case-insensitive substring containment.) -/
def ilikeContains (field : Option Str) (term : Str) : Bool :=
  match field with
  | none => false
  | some s => containsCI s term

/-- The Python-side field test of the match-type walk:
`field and term.lower() in field.lower()` — `None` and the empty string are
falsy, otherwise a case-insensitive substring test. -/
def pyFieldMatch (field : Option Str) (term : Str) : Bool :=
  match field with
  | none => false
  | some s => !s.isEmpty && containsCI s term

/-- Relevance score of a material (search_service.py lines 120-141): the sum
of the four independent `case` expressions — 10 for a title match, 5 for a
description match, 3 for a filename match, 1 for a body-text match. -/
def relevance_score (m : Material) (term : Str) : Nat :=
  (if ilikeContains (some m.title) term then 10 else 0) +
  (if ilikeContains m.description term then 5 else 0) +
  (if ilikeContains m.file_name term then 3 else 0) +
  (if ilikeContains m.file_content_text term then 1 else 0)

/-- The defensive fallback snippet (search_service.py lines 175-179):
`material.description[:100] if material.description else material.title`,
then `"..."` appended when the *resulting* string is longer than 100. -/
def fallback_snippet (m : Material) : Str :=
  let snippet :=
    match m.description with
    | some d => if d.isEmpty then m.title else d.take 100
    | none => m.title
  if 100 < snippet.length then snippet ++ dots else snippet

/-- The first-match-wins walk over title / description / filename / body text
(search_service.py lines 150-173), returning the pre-fallback snippet and the
match type.  `match_type` defaults to `"content"` and the snippet to `""`. -/
def walkPair (m : Material) (search_term : Str) : Str × Str :=
  if pyFieldMatch (some m.title) search_term then
    (generate_snippet m.title search_term 50, "title".toList)
  else if pyFieldMatch m.description search_term then
    (generate_snippet (m.description.getD []) search_term 100, "description".toList)
  else if pyFieldMatch m.file_name search_term then
    (generate_snippet (m.file_name.getD []) search_term 50, "filename".toList)
  else if pyFieldMatch m.file_content_text search_term then
    (generate_snippet (m.file_content_text.getD []) search_term 100, "content".toList)
  else
    ([], "content".toList)

/-- Conversion of one surviving material to a `SearchResult`
(search_service.py lines 148-192): the match-type walk, the empty-snippet
fallback, and the denormalized course / uploader names with `"Unknown"`
defaults. -/
def toSearchResult (m : Material) (search_term : Str) : SearchResult :=
  let p := walkPair m search_term
  { material_id := m.id
    title := m.title
    material_type := m.material_type
    course_name := m.course_name.getD ("Unknown".toList)
    course_id := m.course_id
    uploader_username := m.uploader_username.getD ("Unknown".toList)
    snippet := if p.1 = [] then fallback_snippet m else p.1
    match_type := p.2
    created_at := m.created_at }

/-- Stable insertion into a list kept in descending key order (model of the
SQL `ORDER BY key DESC`; ties keep their prior relative order). -/
def insertKeyDesc {β : Type} [LinearOrder β] (key : Material → β)
    (m : Material) : List Material → List Material
  | [] => [m]
  | x :: xs => if key m ≤ key x then x :: insertKeyDesc key m xs else m :: x :: xs

/-- Stable sort by descending key (model of `ORDER BY key DESC`). -/
def sortKeyDesc {β : Type} [LinearOrder β] (key : Material → β) :
    List Material → List Material
  | [] => []
  | x :: xs => insertKeyDesc key x (sortKeyDesc key xs)

/-- The candidate filter (search_service.py lines 98-112): at least one of the
four fields matches `%term%`, and the optional `course_id` / `material_type`
filters hold. -/
def filteredMaterials (db : List Material) (search_term : Str)
    (course_id : Option Nat) (material_type : Option Str) : List Material :=
  db.filter (fun m =>
    (ilikeContains (some m.title) search_term ||
     ilikeContains m.description search_term ||
     ilikeContains m.file_name search_term ||
     ilikeContains m.file_content_text search_term) &&
    (match course_id with
     | none => true
     | some c => decide (m.course_id = c)) &&
    (match material_type with
     | none => true
     | some t => decide (m.material_type = t)))

/-- The filtered candidates ordered by descending relevance score
(the `sort_by == "relevance"` branch, search_service.py lines 120-141). -/
def rankedMaterials (db : List Material) (search_term : Str)
    (course_id : Option Nat) (material_type : Option Str) : List Material :=
  sortKeyDesc (fun m => relevance_score m search_term)
    (filteredMaterials db search_term course_id material_type)

/-- `SearchService.search_materials` (search_service.py lines 67-194) over the
in-memory material list: empty-query guard, candidate filter, ordering by
`sort_by` (`date`, `rating`, `relevance`, or no explicit order), limit, and
projection to `SearchResult`s. -/
def search_materials (db : List Material) (query : Str) (limit : Nat)
    (course_id : Option Nat) (material_type : Option Str) (sort_by : Str) :
    List SearchResult :=
  if query = [] ∨ strip query = [] then []
  else
    let search_term := strip query
    let filtered := filteredMaterials db search_term course_id material_type
    let sorted :=
      if sort_by = "date".toList then
        sortKeyDesc (fun m => m.created_at) filtered
      else if sort_by = "rating".toList then
        sortKeyDesc (fun m => m.average_rating) filtered
      else if sort_by = "relevance".toList then
        rankedMaterials db search_term course_id material_type
      else filtered
    (sorted.take limit).map (fun m => toSearchResult m search_term)

/-!
### FileService.fix_hebrew_direction (file_service.py lines 16-105)
-/

/-- Membership in the RTL (Hebrew) block U+0590–U+05FF, the test
`'֐' <= c <= '׿'`. -/
def isHeb (c : Char) : Bool :=
  0x590 ≤ c.toNat && c.toNat ≤ 0x5FF

/-- `any('֐' <= c <= '׿' for c in s)`. -/
def hasHeb (s : Str) : Bool := s.any isHeb

/-- A word character for the regex `\b` boundary (Python `\w`), modelled for
the character classes that occur here: ASCII letters, digits, underscore, and
the Hebrew block (Hebrew letters are Unicode letters, hence word characters). -/
def isWordChar (c : Char) : Bool :=
  ('a' ≤ c && c ≤ 'z') || ('A' ≤ c && c ≤ 'Z') ||
  ('0' ≤ c && c ≤ '9') || c = '_' || isHeb c

/-- `re.split(r'(\s+)', line)`: alternating maximal non-whitespace chunks and
whitespace runs, keeping the separators; the leading/trailing chunk is the
empty string when the line starts/ends with whitespace (exactly Python's
behaviour for a capturing split).  Each step consumes the chunk plus a
non-empty whitespace run, so fuel `line.length + 1` (supplied by `tokenize`)
is never exhausted. -/
def tokenizeFuel : Nat → Str → List Str
  | 0, s => [s]
  | fuel + 1, s =>
      let chunk := s.takeWhile (fun c => !(isWs c))
      let rest := s.dropWhile (fun c => !(isWs c))
      if rest = [] then [chunk]
      else chunk :: rest.takeWhile isWs :: tokenizeFuel fuel (rest.dropWhile isWs)

/-- `re.split(r'(\s+)', line)`. -/
def tokenize (line : Str) : List Str := tokenizeFuel (line.length + 1) line

/-- The value of the loop variable `token_has_hebrew = token and any(...)`:
Python's `and` yields `""` (not `False`) for the empty token, and `""`, `True`
and `False` are pairwise distinct under `!=`; the flag therefore has three
possible values plus the initial `None`. -/
inductive HFlag where
  | fnone  -- is_hebrew_segment is None (initial state)
  | emp    -- the Python value "" (empty token seen first)
  | heb    -- True
  | latin  -- False
deriving DecidableEq

/-- `token and any('֐' <= c <= '׿' for c in token)`. -/
def tokenFlag (t : Str) : HFlag :=
  if t = [] then HFlag.emp else if hasHeb t then HFlag.heb else HFlag.latin

/-- One iteration of the segmentation loop (file_service.py lines 56-67) over
state `(is_hebrew_segment, current_segment, segments)`: on a language change at
a non-blank token the current segment is flushed; the token is then appended to
the (possibly fresh) current segment. -/
def segStep (st : HFlag × List Str × List (HFlag × List Str)) (tok : Str) :
    HFlag × List Str × List (HFlag × List Str) :=
  let (flag, cur, segs) := st
  let tf := tokenFlag tok
  if flag = HFlag.fnone then (tf, cur ++ [tok], segs)
  else if flag ≠ tf ∧ strip tok ≠ [] then (tf, [tok], segs ++ [(flag, cur)])
  else (flag, cur ++ [tok], segs)

/-- The full segmentation (file_service.py lines 51-71): fold the loop over
the tokens, then flush the last non-empty current segment. -/
def segmentTokens (tokens : List Str) : List (HFlag × List Str) :=
  let st := tokens.foldl segStep (HFlag.fnone, [], [])
  if st.2.1 = [] then st.2.2 else st.2.2 ++ [(st.1, st.2.1)]

/-- Processing of one segment (file_service.py lines 73-88): a Hebrew segment
(`if is_hebrew:` — truthy only for the flag `True`) has its token order
reversed and each Hebrew token's characters reversed; any other segment is
kept as is. -/
def processSegment (seg : HFlag × List Str) : List Str :=
  if seg.1 = HFlag.heb then
    seg.2.reverse.map (fun t => if t ≠ [] ∧ hasHeb t then t.reverse else t)
  else seg.2

/-- `re.sub(r'([֐-׿]{2,}) ([֐-׿]{1})\b', r'\1\2', s)`:
left-to-right scan; at each position a match needs a maximal Hebrew run of
length ≥ 2 (greedy, and no shorter run can satisfy the following literal
space), then a space, then a single Hebrew character followed by a word
boundary; the replacement drops the space and scanning resumes after the
match.  Each step consumes at least one character, so fuel `s.length`
(supplied by `sub1`) is never exhausted. -/
def sub1Fuel : Nat → Str → Str
  | 0, s => s
  | fuel + 1, s =>
      match s with
      | [] => []
      | c :: rest =>
          let run := (c :: rest).takeWhile isHeb
          let after := (c :: rest).dropWhile isHeb
          if 2 ≤ run.length then
            match after with
            | ' ' :: h :: rest2 =>
                if isHeb h && (match rest2 with
                               | [] => true
                               | d :: _ => !(isWordChar d)) then
                  run ++ h :: sub1Fuel fuel rest2
                else c :: sub1Fuel fuel rest
            | _ => c :: sub1Fuel fuel rest
          else c :: sub1Fuel fuel rest

/-- The first single-letter merge regex (file_service.py line 95). -/
def sub1 (s : Str) : Str := sub1Fuel s.length s

/-- `re.sub(r'\b([֐-׿]{1}) ([֐-׿]{2,})', r'\1\2', s)`:
left-to-right scan carrying the previous character (for the leading `\b`; the
matched single character is Hebrew, hence a word character, so the boundary
holds exactly when the previous character is absent or not a word character);
a match needs that boundary, one Hebrew character, a space, and a greedy
Hebrew run of length ≥ 2; the replacement drops the space and scanning resumes
after the run.  Fuel as in `sub1Fuel`. -/
def sub2Fuel : Nat → Option Char → Str → Str
  | 0, _, s => s
  | fuel + 1, prev, s =>
      match s with
      | [] => []
      | c :: rest =>
          if (match prev with
              | none => true
              | some d => !(isWordChar d)) && isHeb c then
            match rest with
            | ' ' :: rest2 =>
                let run := rest2.takeWhile isHeb
                if 2 ≤ run.length then
                  c :: (run ++ sub2Fuel fuel run.getLast? (rest2.dropWhile isHeb))
                else c :: sub2Fuel fuel (some c) rest
            | _ => c :: sub2Fuel fuel (some c) rest
          else c :: sub2Fuel fuel (some c) rest

/-- The second single-letter merge regex (file_service.py line 96). -/
def sub2 (s : Str) : Str := sub2Fuel s.length none s

/-- `re.sub(r' +', ' ', s)`: collapse every maximal run of spaces to a single
space.  Fuel as in `sub1Fuel`. -/
def collapseFuel : Nat → Str → Str
  | 0, s => s
  | _ + 1, [] => []
  | fuel + 1, c :: rest =>
      if c = ' ' then ' ' :: collapseFuel fuel (rest.dropWhile (· = ' '))
      else c :: collapseFuel fuel rest

/-- `re.sub(r' +', ' ', s)`. -/
def collapseSpaces (s : Str) : Str := collapseFuel s.length s

/-- Processing of a single line (the body of the `for line in lines:` loop,
file_service.py lines 40-104): lines without Hebrew pass through unchanged;
otherwise tokenize, segment, reverse Hebrew segments, join, apply the two
single-letter merge regexes, collapse spaces and strip. -/
def fixLine (line : Str) : Str :=
  if hasHeb line then
    let tokens := tokenize line
    let fixed_tokens := ((segmentTokens tokens).map processSegment).flatten
    strip (collapseSpaces (sub2 (sub1 fixed_tokens.flatten)))
  else line

/-- `str.split('\n')` (note `"".split('\n') == [""]`). -/
def splitNewline : Str → List Str
  | [] => [[]]
  | c :: rest =>
      if c = '\n' then [] :: splitNewline rest
      else
        match splitNewline rest with
        | [] => [[c]]
        | l :: ls => (c :: l) :: ls

/-- `'\n'.join(lines)`. -/
def joinNewline : List Str → Str
  | [] => []
  | [l] => l
  | l :: l2 :: rest => l ++ '\n' :: joinNewline (l2 :: rest)

/-- `FileService.fix_hebrew_direction` (file_service.py lines 16-105):
empty-input guard, split into lines, fix each line, re-join. -/
def fix_hebrew_direction (text : Str) : Str :=
  if text = [] then text
  else joinNewline ((splitNewline text).map fixLine)

/-!
### FileService.extract_pdf_text / extract_file_text (file_service.py 107-174)
-/

/-- The observable outcome of opening and reading the PDF at a path: the file
is missing, the read/parse raises (any exception caught by the handler), or it
yields a list of per-page `extract_text()` results (`None` for pages with no
detectable text). -/
inductive PdfOutcome where
  | missing
  | readError
  | pages (ps : List (Option Str))
deriving DecidableEq

/-- The page-joining step (file_service.py lines 126-134): keep truthy page
texts (`if page_text:` — drops `None` and `""`), join with newlines. -/
def pdf_joined_text (ps : List (Option Str)) : Str :=
  joinNewline ((ps.filterMap id).filter (fun t => !t.isEmpty))

/-- `FileService.extract_pdf_text` (file_service.py lines 107-148) as a
function of the read outcome: `None` for a missing file or a raised error,
`None` when the joined text is blank, otherwise the joined text normalized by
`fix_hebrew_direction`. -/
def extract_pdf_text : PdfOutcome → Option Str
  | PdfOutcome.missing => none
  | PdfOutcome.readError => none
  | PdfOutcome.pages ps =>
      let full_text := pdf_joined_text ps
      if strip full_text = [] then none
      else some (fix_hebrew_direction full_text)

/-- `FileService.extract_file_text` (file_service.py lines 150-174): lowercase
the extension, delegate to `extract_pdf_text` for `.pdf`, otherwise `None`. -/
def extract_file_text (outcome : PdfOutcome) (file_extension : Str) : Option Str :=
  let ext := lowerS file_extension
  if ext = ".pdf".toList then extract_pdf_text outcome
  else none

/-!
### Concrete materials used to instantiate the quantified theorems
-/

/-- A material whose title contains "calculus". -/
def exM1 : Material :=
  { id := 1, title := "Calculus Notes".toList, description := none
    material_type := "summaries".toList, file_name := none
    file_content_text := none, course_id := 7, created_at := 10
    average_rating := 4, course_name := some ("Calc".toList)
    uploader_username := some ("dana".toList) }

/-- A material matching "calculus" only in its body text. -/
def exM3 : Material :=
  { id := 3, title := "Other".toList, description := none
    material_type := "summaries".toList, file_name := none
    file_content_text := some ("deep calculus text".toList), course_id := 7
    created_at := 20, average_rating := 2, course_name := none
    uploader_username := none }

/-- A material with a 101-character description, for the fallback branch. -/
def mC4 : Material :=
  { id := 4, title := "T".toList, description := some (List.replicate 101 'a')
    material_type := "summaries".toList, file_name := none
    file_content_text := none, course_id := 1, created_at := 0
    average_rating := 0, course_name := none, uploader_username := none }

/-- A material with no description and a 101-character title, for the
fallback branch. -/
def mC4b : Material :=
  { id := 5, title := List.replicate 101 'b', description := none
    material_type := "summaries".toList, file_name := none
    file_content_text := none, course_id := 1, created_at := 0
    average_rating := 0, course_name := none, uploader_username := none }

/-- C5: the no-match branch strips the truncated text before returning it, so
the claim "returns exactly the first 2 × context_length characters" fails on a
text whose first characters include leading whitespace: with text `" abc"`,
term `"z"` (no occurrence) and context_length 1 the code returns `"a..."`, not
`" a..."` as the claim demands. -/
theorem generate_snippet_no_match_counterexample :
    containsCI (" abc".toList) ("z".toList) = false ∧
    generate_snippet (" abc".toList) ("z".toList) 1 ≠
      (" abc".toList).take (1 * 2) ++ dots := by
  decide

/-- C5 (amended): for every non-empty text and non-empty term with no
case-insensitive occurrence of the term in the text, `generate_snippet`
returns the first `2 × context_length` characters of the text *with
surrounding whitespace stripped*, and a trailing ellipsis appended if and only
if the text was longer than `2 × context_length`. -/
theorem generate_snippet_no_match (text search_term : Str) (context_length : Nat)
    (htext : text ≠ []) (hterm : search_term ≠ [])
    (hno : containsCI text search_term = false) :
    generate_snippet text search_term context_length =
      strip (text.take (context_length * 2)) ++
        (if context_length * 2 < text.length then dots else []) := by
  have hfind : ciFind text search_term = none := by
    unfold containsCI at hno
    exact Option.not_isSome_iff_eq_none.mp (by simp [hno])
  simp only [generate_snippet, hfind]
  rw [if_neg (by simp [htext, hterm])]
  split <;> simp

/-- C5 witness: the amended statement evaluated at text `" abc"`, term `"z"`,
context_length 1. -/
theorem generate_snippet_no_match_witness :
    generate_snippet (" abc".toList) ("z".toList) 1 =
      strip ((" abc".toList).take (1 * 2)) ++
        (if 1 * 2 < (" abc".toList).length then dots else []) :=
  generate_snippet_no_match (" abc".toList) ("z".toList) 1
    (by decide) (by decide) (by decide)

/-- C1: the spec's worked example.  The claim asserts the result is
`"...ick **brown** fox"`; the code's window is `[10-3, 15+3) = [7, 18)` over a
19-character text, giving `"ck brown fo"` with ellipses on both sides, so the
claimed string is off by one at the left edge and wrongly omits the trailing
ellipsis.  This counterexample refutes the claim as stated. -/
theorem generate_snippet_example_counterexample :
    generate_snippet ("The quick brown fox".toList) ("brown".toList) 3 ≠
      "...ick **brown** fox".toList := by
  decide

/-- C1 (amended): `generate_snippet "The quick brown fox" "brown" 3` returns
exactly `"...ck **brown** fo..."`: the window `[7, 18)` clamped to `[0, 19]`,
with `"..."` on both sides since the window touches neither end, and the single
occurrence of `brown` wrapped in `**` markers. -/
theorem generate_snippet_example :
    generate_snippet ("The quick brown fox".toList) ("brown".toList) 3 =
      "...ck **brown** fo...".toList := by
  decide

/-- C8: for every query that is empty or blank after trimming,
`search_materials` returns the empty list, whatever the limit, course filter,
type filter and sort order are. -/
theorem search_materials_empty_query (db : List Material) (query : Str)
    (limit : Nat) (course_id : Option Nat) (material_type : Option Str)
    (sort_by : Str) (h : strip query = []) :
    search_materials db query limit course_id material_type sort_by = [] := by
  simp [search_materials, h]

/-- C8 witness: a whitespace-only query against a non-empty store. -/
theorem search_materials_empty_query_witness :
    search_materials [exM1, exM3] ("  ".toList) 5 (some 7) none
      ("relevance".toList) = [] :=
  search_materials_empty_query [exM1, exM3] ("  ".toList) 5 (some 7) none
    ("relevance".toList) (by decide)

/-- C4: the claim says the fallback snippet is "truncated to 100 characters
with a trailing ellipsis appended if the source text was longer than 100".
The code slices the description to 100 characters *before* the length test, so
a 101-character description yields the bare 100-character prefix without the
ellipsis; and a missing description yields the raw title *untruncated* (only
the ellipsis is appended).  Both halves of the claim fail. -/
theorem fallback_snippet_counterexample :
    (100 < (List.replicate 101 'a').length ∧
      fallback_snippet mC4 ≠ (List.replicate 101 'a').take 100 ++ dots) ∧
    (100 < (List.replicate 101 'b').length ∧
      fallback_snippet mC4b ≠ (List.replicate 101 'b').take 100 ++ dots) := by
  decide

/-- C4 (amended): in the defensive fallback branch, when the description is
present and non-empty the snippet is the first 100 characters of the
description and no ellipsis is ever appended (the slice already caps the
length at 100); when the description is absent or empty the snippet is the
full untruncated title, with an ellipsis appended iff the title is longer than
100 characters. -/
theorem fallback_snippet_amended (m : Material) :
    (∀ d, m.description = some d → d ≠ [] →
      fallback_snippet m = d.take 100) ∧
    ((m.description = none ∨ m.description = some []) →
      fallback_snippet m =
        if 100 < m.title.length then m.title ++ dots else m.title) := by
  constructor
  · intro d hd hne
    simp only [fallback_snippet, hd, List.isEmpty_iff]
    rw [if_neg hne, if_neg (by rw [List.length_take]; omega)]
  · intro hd
    rcases hd with hd | hd <;> simp [fallback_snippet, hd]

/-- C4 witness: the amended statement at the 101-character description. -/
theorem fallback_snippet_amended_witness :
    fallback_snippet mC4 = (List.replicate 101 'a').take 100 :=
  (fallback_snippet_amended mC4).1 (List.replicate 101 'a') rfl (by decide)

/-- C9: `extract_file_text` returns `none` for every non-`.pdf` extension
(after lowercasing), for a missing file, for a failed read/parse (the caught
exception path), and for a blank joined page text; it returns the normalized
text exactly when the extension is `.pdf` and the joined page text is
non-blank.  Totality of the model is the "never propagates an error"
guarantee: every read outcome is mapped to a value. -/
theorem extract_file_text_failure_semantics :
    (∀ outcome ext, lowerS ext ≠ ".pdf".toList →
      extract_file_text outcome ext = none) ∧
    (∀ ext, extract_file_text PdfOutcome.missing ext = none) ∧
    (∀ ext, extract_file_text PdfOutcome.readError ext = none) ∧
    (∀ ext ps, strip (pdf_joined_text ps) = [] →
      extract_file_text (PdfOutcome.pages ps) ext = none) ∧
    (∀ ext ps, lowerS ext = ".pdf".toList → strip (pdf_joined_text ps) ≠ [] →
      extract_file_text (PdfOutcome.pages ps) ext =
        some (fix_hebrew_direction (pdf_joined_text ps))) := by
  refine ⟨?_, ?_, ?_, ?_, ?_⟩
  · intro outcome ext h
    simp only [extract_file_text]
    rw [if_neg h]
  · intro ext
    simp only [extract_file_text, extract_pdf_text]
    split <;> rfl
  · intro ext
    simp only [extract_file_text, extract_pdf_text]
    split <;> rfl
  · intro ext ps h
    simp only [extract_file_text]
    split
    · simp [extract_pdf_text, h]
    · rfl
  · intro ext ps hext hne
    simp only [extract_file_text]
    rw [if_pos hext]
    simp [extract_pdf_text, hne]

/-- C9 witness: the four failure shapes and the success shape at concrete
inputs (unsupported extension, missing file, blank page text, and a
successful uppercase-`.PDF` extraction). -/
theorem extract_file_text_failure_semantics_witness :
    extract_file_text (PdfOutcome.pages [some ("hi".toList)]) (".txt".toList) = none ∧
    extract_file_text PdfOutcome.missing (".pdf".toList) = none ∧
    extract_file_text PdfOutcome.readError (".pdf".toList) = none ∧
    extract_file_text (PdfOutcome.pages [some [' ']]) (".pdf".toList) = none ∧
    extract_file_text (PdfOutcome.pages [some ("hi".toList)]) (".PDF".toList) =
      some (fix_hebrew_direction (pdf_joined_text [some ("hi".toList)])) :=
  ⟨extract_file_text_failure_semantics.1 _ _ (by decide),
   extract_file_text_failure_semantics.2.1 _,
   extract_file_text_failure_semantics.2.2.1 _,
   extract_file_text_failure_semantics.2.2.2.1 _ _ (by decide),
   extract_file_text_failure_semantics.2.2.2.2 _ _ (by decide) (by decide)⟩

/-- `splitNewline` never returns the empty list (`str.split` always yields at
least one piece). -/
theorem splitNewline_ne_nil (s : Str) : splitNewline s ≠ [] := by
  cases s with
  | nil => simp [splitNewline]
  | cons c rest =>
    simp only [splitNewline]
    split
    · simp
    · split <;> simp

/-- Every character of every line produced by `splitNewline` is a character of
the original string. -/
theorem mem_of_mem_splitNewline {s l : Str} {c : Char}
    (hl : l ∈ splitNewline s) (hc : c ∈ l) : c ∈ s := by
  induction s generalizing l with
  | nil =>
    simp only [splitNewline, List.mem_singleton] at hl
    subst hl; simp at hc
  | cons a rest ih =>
    simp only [splitNewline] at hl
    by_cases ha : a = '\n'
    · rw [if_pos ha] at hl
      rcases List.mem_cons.mp hl with rfl | hl
      · simp at hc
      · exact List.mem_cons_of_mem _ (ih hl hc)
    · rw [if_neg ha] at hl
      rcases hsp : splitNewline rest with _ | ⟨l0, ls⟩
      · exact absurd hsp (splitNewline_ne_nil rest)
      · rw [hsp] at hl
        rcases List.mem_cons.mp hl with rfl | hl
        · rcases List.mem_cons.mp hc with rfl | hc
          · exact List.mem_cons_self _ _
          · exact List.mem_cons_of_mem _
              (ih (l := l0) (by rw [hsp]; exact List.mem_cons_self l0 ls) hc)
        · exact List.mem_cons_of_mem _
            (ih (by rw [hsp]; exact List.mem_cons_of_mem _ hl) hc)

/-- `'\n'.join(s.split('\n')) == s`. -/
theorem joinNewline_splitNewline (s : Str) : joinNewline (splitNewline s) = s := by
  induction s with
  | nil => rfl
  | cons a rest ih =>
    simp only [splitNewline]
    by_cases ha : a = '\n'
    · rw [if_pos ha]
      rcases hsp : splitNewline rest with _ | ⟨l0, ls⟩
      · exact absurd hsp (splitNewline_ne_nil rest)
      · rw [hsp] at ih
        simp only [joinNewline]
        rw [ih, ha]
        rfl
    · rw [if_neg ha]
      rcases hsp : splitNewline rest with _ | ⟨l0, ls⟩
      · exact absurd hsp (splitNewline_ne_nil rest)
      · rw [hsp] at ih
        cases ls with
        | nil => simp only [joinNewline] at ih ⊢; rw [ih]
        | cons l1 ls2 =>
          simp only [joinNewline, List.cons_append] at ih ⊢
          rw [ih]

/-- C6: `fix_hebrew_direction` is the identity on every string without
RTL-range (U+0590–U+05FF) codepoints: each line fails the `has_hebrew` test
and passes through untouched, and re-joining the split lines restores the
string. -/
theorem fix_hebrew_direction_no_rtl (s : Str)
    (h : ∀ c ∈ s, isHeb c = false) : fix_hebrew_direction s = s := by
  unfold fix_hebrew_direction
  split
  · rfl
  · have hmap : ∀ l ∈ splitNewline s, fixLine l = l := by
      intro l hl
      have hh : hasHeb l = false := by
        rw [hasHeb, List.any_eq_false]
        intro c hc
        simp [h c (mem_of_mem_splitNewline hl hc)]
      simp [fixLine, hh]
    rw [List.map_congr_left hmap, List.map_id', joinNewline_splitNewline]

/-- C6 witness: a multi-line Latin string is returned unchanged. -/
theorem fix_hebrew_direction_no_rtl_witness :
    fix_hebrew_direction ("hello world\n  second line ".toList) =
      "hello world\n  second line ".toList :=
  fix_hebrew_direction_no_rtl _ (by decide)

/-- An RTL-block character is not whitespace. -/
theorem isHeb_not_isWs {c : Char} (h : isHeb c = true) : isWs c = false := by
  simp only [isHeb, Bool.and_eq_true, decide_eq_true_eq] at h
  by_contra hw
  rw [Bool.not_eq_false] at hw
  simp only [isWs, Bool.or_eq_true, decide_eq_true_eq] at hw
  rcases hw with ((((hc | hc) | hc) | hc) | hc) | hc
  · subst hc; exact absurd h (by decide)
  · subst hc; exact absurd h (by decide)
  · subst hc; exact absurd h (by decide)
  · subst hc; exact absurd h (by decide)
  · omega
  · omega

/-- An RTL-block character is not a space. -/
theorem isHeb_ne_space {c : Char} (h : isHeb c = true) : c ≠ ' ' := by
  intro hc; subst hc; exact absurd h (by decide)

/-- An RTL-block character is not a newline. -/
theorem isHeb_ne_newline {c : Char} (h : isHeb c = true) : c ≠ '\n' := by
  intro hc; subst hc; exact absurd h (by decide)

/-- Splitting a newline-free string yields that single line. -/
theorem splitNewline_eq_single {s : Str} (h : '\n' ∉ s) : splitNewline s = [s] := by
  induction s with
  | nil => rfl
  | cons c rest ih =>
    have hc : ¬(c = '\n') := fun hcc => h (hcc ▸ List.mem_cons_self c rest)
    have hr : '\n' ∉ rest := fun hm => h (List.mem_cons_of_mem c hm)
    simp only [splitNewline, if_neg hc, ih hr]

/-- The first merge regex leaves a space-free string unchanged (its pattern
contains a literal space). -/
theorem sub1Fuel_eq_self : ∀ (fuel : Nat) {s : Str}, ' ' ∉ s →
    sub1Fuel fuel s = s := by
  intro fuel
  induction fuel with
  | zero => intro s _; rfl
  | succ f ih =>
    intro s hs
    match s with
    | [] => rfl
    | c :: rest =>
      have hrest : ' ' ∉ rest := fun hm => hs (List.mem_cons_of_mem c hm)
      simp only [sub1Fuel]
      split
      · split
        · next hd rest2 heq =>
            exfalso
            have hmem : ' ' ∈ (c :: rest).dropWhile isHeb := by
              rw [heq]; exact List.mem_cons_self _ _
            exact hs ((List.dropWhile_sublist _).subset hmem)
        · rw [ih hrest]
      · rw [ih hrest]

/-- The second merge regex leaves a space-free string unchanged. -/
theorem sub2Fuel_eq_self : ∀ (fuel : Nat) (prev : Option Char) {s : Str},
    ' ' ∉ s → sub2Fuel fuel prev s = s := by
  intro fuel
  induction fuel with
  | zero => intro prev s _; rfl
  | succ f ih =>
    intro prev s hs
    match s with
    | [] => rfl
    | c :: rest =>
      have hrest : ' ' ∉ rest := fun hm => hs (List.mem_cons_of_mem c hm)
      simp only [sub2Fuel]
      split
      · split
        · exact absurd (List.mem_cons_self ' ' _) hrest
        · rw [ih _ hrest]
      · rw [ih _ hrest]

/-- Space collapsing leaves a space-free string unchanged. -/
theorem collapseFuel_eq_self : ∀ (fuel : Nat) {s : Str}, ' ' ∉ s →
    collapseFuel fuel s = s := by
  intro fuel
  induction fuel with
  | zero => intro s _; rfl
  | succ f ih =>
    intro s hs
    match s with
    | [] => rfl
    | c :: rest =>
      have hc : ¬(c = ' ') := fun hcc => hs (hcc ▸ List.mem_cons_self c rest)
      have hrest : ' ' ∉ rest := fun hm => hs (List.mem_cons_of_mem c hm)
      simp only [collapseFuel, if_neg hc]
      rw [ih hrest]

/-- `dropWhile` is the identity when no element satisfies the predicate. -/
theorem dropWhile_eq_self_of_forall {p : Char → Bool} {s : Str}
    (h : ∀ c ∈ s, p c = false) : s.dropWhile p = s := by
  cases s with
  | nil => rfl
  | cons c rest =>
    simp [List.dropWhile_cons, h c (List.mem_cons_self c rest)]

/-- `strip` is the identity on strings without whitespace. -/
theorem strip_eq_self_of_forall {s : Str} (h : ∀ c ∈ s, isWs c = false) :
    strip s = s := by
  unfold strip
  rw [dropWhile_eq_self_of_forall h,
      dropWhile_eq_self_of_forall (fun c hc => h c (List.mem_reverse.mp hc))]
  exact List.reverse_reverse s

/-- C7: for every word consisting only of RTL-block characters, presented as a
single isolated line, character-reversal followed by `fix_hebrew_direction` is
the identity: the reversed word is the line's only token, forms one Hebrew
segment, and is character-reversed back; the merge regexes, space collapsing
and strip do not touch a space-free all-Hebrew word. -/
theorem fix_hebrew_direction_reverse_word (w : Str)
    (h : ∀ c ∈ w, isHeb c = true) :
    fix_hebrew_direction w.reverse = w := by
  rcases eq_or_ne w [] with rfl | hne
  · simp [fix_hebrew_direction]
  · have hrev : ∀ c ∈ w.reverse, isHeb c = true :=
      fun c hc => h c (List.mem_reverse.mp hc)
    have hrevne : w.reverse ≠ [] := by simpa using hne
    have hnl : '\n' ∉ w.reverse := fun hm => isHeb_ne_newline (hrev _ hm) rfl
    have hspace : ' ' ∉ w := fun hm => isHeb_ne_space (h ' ' hm) rfl
    have hheb : hasHeb w.reverse = true := by
      rw [hasHeb, List.any_eq_true]
      rcases List.exists_mem_of_ne_nil w.reverse hrevne with ⟨c, hc⟩
      exact ⟨c, hc, hrev c hc⟩
    have htok : tokenize w.reverse = [w.reverse] := by
      unfold tokenize
      simp only [tokenizeFuel]
      rw [List.takeWhile_eq_self_iff.mpr
            (fun x hx => by simp [isHeb_not_isWs (hrev x hx)])]
      rw [List.dropWhile_eq_nil_iff.mpr
            (fun x hx => by simp [isHeb_not_isWs (hrev x hx)])]
      simp
    have hflag : tokenFlag w.reverse = HFlag.heb := by
      unfold tokenFlag
      rw [if_neg hrevne, if_pos hheb]
    have hseg : segmentTokens [w.reverse] = [(HFlag.heb, [w.reverse])] := by
      simp [segmentTokens, segStep, hflag]
    have hproc : processSegment (HFlag.heb, [w.reverse]) = [w] := by
      simp [processSegment, hrevne, hheb]
    unfold fix_hebrew_direction
    rw [if_neg hrevne, splitNewline_eq_single hnl]
    simp only [List.map_cons, List.map_nil, joinNewline]
    unfold fixLine
    rw [if_pos hheb, htok]
    simp only [hseg, List.map_cons, List.map_nil, hproc, List.flatten_cons,
      List.flatten_nil, List.append_nil]
    simp only [sub1, sub2, collapseSpaces]
    rw [sub1Fuel_eq_self _ hspace, sub2Fuel_eq_self _ _ hspace,
        collapseFuel_eq_self _ hspace,
        strip_eq_self_of_forall (fun c hc => isHeb_not_isWs (h c hc))]

/-- C7 witness: the reversed characters of "שלום" normalize back to "שלום". -/
theorem fix_hebrew_direction_reverse_word_witness :
    fix_hebrew_direction ("שלום".toList.reverse) = "שלום".toList :=
  fix_hebrew_direction_reverse_word ("שלום".toList) (by decide)

/-- Every character emitted by the first merge regex comes from its input. -/
theorem mem_of_mem_sub1Fuel : ∀ (fuel : Nat) {s : Str} {x : Char},
    x ∈ sub1Fuel fuel s → x ∈ s := by
  intro fuel
  induction fuel with
  | zero => intro s x hx; exact hx
  | succ f ih =>
    intro s x hx
    match s with
    | [] => exact hx
    | c :: rest =>
      simp only [sub1Fuel] at hx
      split at hx
      · split at hx
        · next hd rest2 heq =>
            split at hx
            · rcases List.mem_append.mp hx with hx | hx
              · exact (List.takeWhile_sublist _).subset hx
              · rcases List.mem_cons.mp hx with rfl | hx
                · have hmem : x ∈ List.dropWhile isHeb (c :: rest) := by
                    rw [heq]
                    exact List.mem_cons_of_mem ' ' (List.mem_cons_self _ _)
                  exact (List.dropWhile_sublist _).subset hmem
                · have hmem : x ∈ List.dropWhile isHeb (c :: rest) := by
                    rw [heq]
                    exact List.mem_cons_of_mem ' '
                      (List.mem_cons_of_mem hd (ih hx))
                  exact (List.dropWhile_sublist _).subset hmem
            · rcases List.mem_cons.mp hx with rfl | hx
              · exact List.mem_cons_self x rest
              · exact List.mem_cons_of_mem c (ih hx)
        · rcases List.mem_cons.mp hx with rfl | hx
          · exact List.mem_cons_self x rest
          · exact List.mem_cons_of_mem c (ih hx)
      · rcases List.mem_cons.mp hx with rfl | hx
        · exact List.mem_cons_self x rest
        · exact List.mem_cons_of_mem c (ih hx)

/-- Every character emitted by the second merge regex comes from its input. -/
theorem mem_of_mem_sub2Fuel : ∀ (fuel : Nat) (prev : Option Char) {s : Str}
    {x : Char}, x ∈ sub2Fuel fuel prev s → x ∈ s := by
  intro fuel
  induction fuel with
  | zero => intro prev s x hx; exact hx
  | succ f ih =>
    intro prev s x hx
    match s with
    | [] => exact hx
    | c :: rest =>
      simp only [sub2Fuel] at hx
      split at hx
      · split at hx
        · split at hx
          · rcases List.mem_cons.mp hx with rfl | hx
            · exact List.mem_cons_self x _
            · rcases List.mem_append.mp hx with hx | hx
              · exact List.mem_cons_of_mem c
                  (List.mem_cons_of_mem ' ' ((List.takeWhile_sublist _).subset hx))
              · exact List.mem_cons_of_mem c
                  (List.mem_cons_of_mem ' '
                    ((List.dropWhile_sublist _).subset (ih _ hx)))
          · rcases List.mem_cons.mp hx with rfl | hx
            · exact List.mem_cons_self x _
            · exact List.mem_cons_of_mem c (ih _ hx)
        · rcases List.mem_cons.mp hx with rfl | hx
          · exact List.mem_cons_self x rest
          · exact List.mem_cons_of_mem c (ih _ hx)
      · rcases List.mem_cons.mp hx with rfl | hx
        · exact List.mem_cons_self x rest
        · exact List.mem_cons_of_mem c (ih _ hx)

/-- Every character emitted by space collapsing comes from its input. -/
theorem mem_of_mem_collapseFuel : ∀ (fuel : Nat) {s : Str} {x : Char},
    x ∈ collapseFuel fuel s → x ∈ s := by
  intro fuel
  induction fuel with
  | zero => intro s x hx; exact hx
  | succ f ih =>
    intro s x hx
    match s with
    | [] => exact hx
    | c :: rest =>
      simp only [collapseFuel] at hx
      split at hx
      · next hc =>
          rcases List.mem_cons.mp hx with rfl | hx
          · rw [hc]; exact List.mem_cons_self _ _
          · exact List.mem_cons_of_mem c
              ((List.dropWhile_sublist _).subset (ih hx))
      · rcases List.mem_cons.mp hx with rfl | hx
        · exact List.mem_cons_self x rest
        · exact List.mem_cons_of_mem c (ih hx)

/-- Every character surviving `strip` comes from its input. -/
theorem mem_of_mem_strip {s : Str} {x : Char} (hx : x ∈ strip s) : x ∈ s := by
  unfold strip at hx
  have h1 := (List.dropWhile_sublist _).subset (List.mem_reverse.mp hx)
  exact (List.dropWhile_sublist _).subset (List.mem_reverse.mp h1)

/-- Every character of every token produced by the tokenizer comes from the
tokenized line. -/
theorem mem_of_mem_tokenizeFuel : ∀ (fuel : Nat) {s t : Str} {x : Char},
    t ∈ tokenizeFuel fuel s → x ∈ t → x ∈ s := by
  intro fuel
  induction fuel with
  | zero =>
    intro s t x ht hx
    simp only [tokenizeFuel, List.mem_singleton] at ht
    exact ht ▸ hx
  | succ f ih =>
    intro s t x ht hx
    simp only [tokenizeFuel] at ht
    split at ht
    · simp only [List.mem_singleton] at ht
      subst ht
      exact (List.takeWhile_sublist _).subset hx
    · rcases List.mem_cons.mp ht with rfl | ht
      · exact (List.takeWhile_sublist _).subset hx
      · rcases List.mem_cons.mp ht with rfl | ht
        · exact (List.dropWhile_sublist _).subset
            ((List.takeWhile_sublist _).subset hx)
        · exact (List.dropWhile_sublist _).subset
            ((List.dropWhile_sublist _).subset (ih ht hx))

/-- One segmentation step only moves tokens between the current segment and
the finished segments, or introduces the folded token. -/
theorem segStep_token_src (st : HFlag × List Str × List (HFlag × List Str))
    (tok t : Str)
    (h : t ∈ (segStep st tok).2.1 ∨ ∃ sg ∈ (segStep st tok).2.2, t ∈ sg.2) :
    (t ∈ st.2.1 ∨ ∃ sg ∈ st.2.2, t ∈ sg.2) ∨ t = tok := by
  obtain ⟨flag, cur, segs⟩ := st
  simp only [segStep] at h
  split at h
  · rcases h with h | h
    · rcases List.mem_append.mp h with h | h
      · exact Or.inl (Or.inl h)
      · exact Or.inr (List.mem_singleton.mp h)
    · exact Or.inl (Or.inr h)
  · split at h
    · rcases h with h | ⟨sg, hsg, hts⟩
      · exact Or.inr (List.mem_singleton.mp h)
      · rcases List.mem_append.mp hsg with hsg | hsg
        · exact Or.inl (Or.inr ⟨sg, hsg, hts⟩)
        · simp only [List.mem_singleton] at hsg
          subst hsg
          exact Or.inl (Or.inl hts)
    · rcases h with h | h
      · rcases List.mem_append.mp h with h | h
        · exact Or.inl (Or.inl h)
        · exact Or.inr (List.mem_singleton.mp h)
      · exact Or.inl (Or.inr h)

/-- Folding the segmentation over a token list only rearranges those tokens. -/
theorem foldl_segStep_token_src : ∀ (ts : List Str)
    (st : HFlag × List Str × List (HFlag × List Str)) (t : Str),
    (t ∈ (ts.foldl segStep st).2.1 ∨ ∃ sg ∈ (ts.foldl segStep st).2.2, t ∈ sg.2) →
    (t ∈ st.2.1 ∨ ∃ sg ∈ st.2.2, t ∈ sg.2) ∨ t ∈ ts := by
  intro ts
  induction ts with
  | nil => intro st t h; exact Or.inl h
  | cons tok ts2 ih =>
    intro st t h
    rcases ih (segStep st tok) t h with h | h
    · rcases segStep_token_src st tok t h with h | rfl
      · exact Or.inl h
      · exact Or.inr (List.mem_cons_self _ _)
    · exact Or.inr (List.mem_cons_of_mem _ h)

/-- Every token of every segment produced by `segmentTokens` is one of the
input tokens. -/
theorem mem_of_mem_segmentTokens {tokens : List Str} {sg : HFlag × List Str}
    {t : Str} (hsg : sg ∈ segmentTokens tokens) (ht : t ∈ sg.2) : t ∈ tokens := by
  simp only [segmentTokens] at hsg
  have key : t ∈ (tokens.foldl segStep (HFlag.fnone, [], [])).2.1 ∨
      ∃ sg2 ∈ (tokens.foldl segStep (HFlag.fnone, [], [])).2.2, t ∈ sg2.2 := by
    split at hsg
    · exact Or.inr ⟨sg, hsg, ht⟩
    · rcases List.mem_append.mp hsg with h | h
      · exact Or.inr ⟨sg, h, ht⟩
      · simp only [List.mem_singleton] at h
        subst h
        exact Or.inl ht
  rcases foldl_segStep_token_src tokens _ t key with h | h
  · rcases h with h | ⟨sg2, hsg2, _⟩
    · exact absurd h (List.not_mem_nil t)
    · exact absurd hsg2 (List.not_mem_nil sg2)
  · exact h

/-- Every character of every token emitted by `processSegment` comes from one
of the segment's tokens. -/
theorem mem_of_mem_processSegment {sg : HFlag × List Str} {t : Str} {x : Char}
    (h : t ∈ processSegment sg) (hx : x ∈ t) : ∃ u ∈ sg.2, x ∈ u := by
  unfold processSegment at h
  split at h
  · rcases List.mem_map.mp h with ⟨u, hu, rfl⟩
    refine ⟨u, List.mem_reverse.mp hu, ?_⟩
    by_cases hcond : u ≠ [] ∧ hasHeb u
    · rw [if_pos hcond] at hx
      exact List.mem_reverse.mp hx
    · rw [if_neg hcond] at hx
      exact hx
  · exact ⟨t, h, hx⟩

/-- Every character of a fixed line comes from the original line. -/
theorem mem_of_mem_fixLine {l : Str} {x : Char} (hx : x ∈ fixLine l) : x ∈ l := by
  unfold fixLine at hx
  split at hx
  · have h1 := mem_of_mem_sub1Fuel _
      (mem_of_mem_sub2Fuel _ _
        (mem_of_mem_collapseFuel _ (mem_of_mem_strip hx)))
    rcases List.mem_flatten.mp h1 with ⟨t, ht, hxt⟩
    rcases List.mem_flatten.mp ht with ⟨ps, hps, htps⟩
    rcases List.mem_map.mp hps with ⟨sg, hsg, rfl⟩
    rcases mem_of_mem_processSegment htps hxt with ⟨u, hu, hxu⟩
    exact mem_of_mem_tokenizeFuel _ (mem_of_mem_segmentTokens hsg hu) hxu
  · exact hx

/-- No line produced by `splitNewline` contains a newline. -/
theorem no_newline_of_mem_splitNewline : ∀ {s l : Str},
    l ∈ splitNewline s → '\n' ∉ l := by
  intro s
  induction s with
  | nil =>
    intro l hl
    simp only [splitNewline, List.mem_singleton] at hl
    subst hl; simp
  | cons c rest ih =>
    intro l hl
    simp only [splitNewline] at hl
    by_cases hc : c = '\n'
    · rw [if_pos hc] at hl
      rcases List.mem_cons.mp hl with rfl | hl
      · simp
      · exact ih hl
    · rw [if_neg hc] at hl
      rcases hsp : splitNewline rest with _ | ⟨l0, ls⟩
      · exact absurd hsp (splitNewline_ne_nil rest)
      · rw [hsp] at hl
        rcases List.mem_cons.mp hl with rfl | hl
        · intro hmem
          rcases List.mem_cons.mp hmem with heq | hmem
          · exact hc heq.symm
          · exact ih (hsp ▸ List.mem_cons_self l0 ls) hmem
        · exact ih (by rw [hsp]; exact List.mem_cons_of_mem _ hl)

/-- Splitting after appending a newline-free line in front. -/
theorem splitNewline_append {l t : Str} (h : '\n' ∉ l) :
    splitNewline (l ++ '\n' :: t) = l :: splitNewline t := by
  induction l with
  | nil => simp [splitNewline]
  | cons c l0 ih =>
    have hc : ¬(c = '\n') := fun hcc => h (hcc ▸ List.mem_cons_self _ _)
    have hl0 : '\n' ∉ l0 := fun hm => h (List.mem_cons_of_mem _ hm)
    simp only [List.cons_append, splitNewline, if_neg hc, List.append_eq]
    rw [ih hl0]

/-- `split('\n')` is a left inverse of `'\n'.join` on non-empty lists of
newline-free lines. -/
theorem splitNewline_joinNewline : ∀ (ls : List Str), ls ≠ [] →
    (∀ l ∈ ls, '\n' ∉ l) → splitNewline (joinNewline ls) = ls
  | [], h, _ => absurd rfl h
  | [l], _, hall => by
      simp only [joinNewline]
      exact splitNewline_eq_single (hall l (List.mem_cons_self _ _))
  | l :: l1 :: ls3, _, hall => by
      simp only [joinNewline]
      rw [splitNewline_append (hall l (List.mem_cons_self _ _))]
      rw [splitNewline_joinNewline (l1 :: ls3) (by simp)
          (fun u hu => hall u (List.mem_cons_of_mem _ hu))]

/-- C10: `fix_hebrew_direction` preserves the number of newline-separated
lines: it splits on newlines, fixes each line without ever producing a new
newline (every output character of a fixed line comes from that line), and
re-joins with newlines. -/
theorem fix_hebrew_direction_preserves_line_count (s : Str) :
    (splitNewline (fix_hebrew_direction s)).length = (splitNewline s).length := by
  unfold fix_hebrew_direction
  split
  · rfl
  · have h1 : ∀ l ∈ (splitNewline s).map fixLine, '\n' ∉ l := by
      intro l hl
      rcases List.mem_map.mp hl with ⟨l0, hl0, rfl⟩
      intro hmem
      exact no_newline_of_mem_splitNewline hl0 (mem_of_mem_fixLine hmem)
    rw [splitNewline_joinNewline _ (by simpa using splitNewline_ne_nil s) h1,
        List.length_map]

/-- `isPrefixOf` survives appending on the right. -/
theorem isPrefixOf_append {n l u : Str} (h : n.isPrefixOf l = true) :
    n.isPrefixOf (l ++ u) = true := by
  induction n generalizing l with
  | nil => exact List.isPrefixOf_nil_left
  | cons a n2 ih =>
    cases l with
    | nil => simp [List.isPrefixOf] at h
    | cons b l2 =>
      simp only [List.isPrefixOf, List.cons_append, Bool.and_eq_true] at h ⊢
      exact ⟨h.1, ih h.2⟩

/-- A prefix of `l` of length at most `k` is a prefix of `l.take k`. -/
theorem isPrefixOf_take {n l : Str} {k : Nat} (h : n.isPrefixOf l = true)
    (hk : n.length ≤ k) : n.isPrefixOf (l.take k) = true := by
  induction n generalizing l k with
  | nil => exact List.isPrefixOf_nil_left
  | cons a n2 ih =>
    cases l with
    | nil => simp [List.isPrefixOf] at h
    | cons b l2 =>
      cases k with
      | zero => simp at hk
      | succ k2 =>
        simp only [List.isPrefixOf, Bool.and_eq_true, List.take_succ_cons] at h ⊢
        exact ⟨h.1, ih h.2 (by simpa using hk)⟩

/-- A prefix is no longer than the list it prefixes. -/
theorem length_le_of_isPrefixOf {n l : Str} (h : n.isPrefixOf l = true) :
    n.length ≤ l.length := by
  induction n generalizing l with
  | nil => simp
  | cons a n2 ih =>
    cases l with
    | nil => simp [List.isPrefixOf] at h
    | cons b l2 =>
      simp only [List.isPrefixOf, Bool.and_eq_true] at h
      simpa using ih h.2

/-- `findSub` returns a genuine occurrence index. -/
theorem isPrefixOf_drop_of_findSub {n hay : Str} {i : Nat}
    (hf : findSub n hay = some i) : n.isPrefixOf (hay.drop i) = true := by
  induction hay generalizing i with
  | nil =>
    simp only [findSub] at hf
    split at hf
    · next hp => cases hf; exact hp
    · cases hf
  | cons c rest ih =>
    simp only [findSub] at hf
    split at hf
    · next hp => cases hf; exact hp
    · rcases Option.map_eq_some'.mp hf with ⟨j, hj, rfl⟩
      simpa using ih hj

/-- An occurrence anywhere makes `findSub` succeed. -/
theorem findSub_isSome_of_isPrefixOf_drop {n hay : Str} (i : Nat)
    (hp : n.isPrefixOf (hay.drop i) = true) : (findSub n hay).isSome = true := by
  induction hay generalizing i with
  | nil =>
    simp only [List.drop_nil] at hp
    simp [findSub, hp]
  | cons c rest ih =>
    simp only [findSub]
    split
    · rfl
    · next hnp =>
        cases i with
        | zero =>
          rw [List.drop_zero] at hp
          exact absurd hp hnp
        | succ j =>
          rw [List.drop_succ_cons] at hp
          simpa using ih j hp

/-- `findSub` only succeeds at an index within the haystack. -/
theorem findSub_le_length {n hay : Str} {i : Nat}
    (hf : findSub n hay = some i) : i ≤ hay.length := by
  induction hay generalizing i with
  | nil =>
    simp only [findSub] at hf
    split at hf
    · cases hf; simp
    · cases hf
  | cons c rest ih =>
    simp only [findSub] at hf
    split at hf
    · cases hf; simp
    · rcases Option.map_eq_some'.mp hf with ⟨j, hj, rfl⟩
      simpa using ih hj

/-- The empty string contains no non-empty term. -/
theorem containsCI_nil {term : Str} (h : term ≠ []) :
    containsCI [] term = false := by
  unfold containsCI ciFind
  cases term with
  | nil => exact absurd rfl h
  | cons a l => simp [lowerS, findSub, List.isPrefixOf]

/-- Containment descends past a head at which the term does not match. -/
theorem containsCI_of_cons {c : Char} {rest term : Str}
    (hc : containsCI (c :: rest) term = true)
    (hp : (lowerS term).isPrefixOf (lowerS (c :: rest)) = false) :
    containsCI rest term = true := by
  unfold containsCI ciFind at hc ⊢
  have hexp : lowerS (c :: rest) = lowerC c :: lowerS rest := rfl
  rw [hexp] at hc hp
  rw [findSub, if_neg (by intro hx; rw [hx] at hp; cases hp)] at hc
  simpa using hc

/-- Dropping past a leading block. -/
theorem drop_append_length : ∀ (a x : Str) (i : Nat),
    (a ++ x).drop (a.length + i) = x.drop i
  | [], x, i => by simp
  | b :: a2, x, i => by
      simp only [List.cons_append, List.length_cons]
      rw [show a2.length + 1 + i = (a2.length + i) + 1 from by omega,
          List.drop_succ_cons]
      exact drop_append_length a2 x i

/-- Dropping within the left part of an append. -/
theorem drop_append_le : ∀ (w b : Str) (i : Nat), i ≤ w.length →
    (w ++ b).drop i = w.drop i ++ b
  | _, _, 0, _ => by simp
  | [], _, i + 1, h => by simp at h
  | c :: w2, b, i + 1, h => by
      simp only [List.cons_append, List.drop_succ_cons]
      exact drop_append_le w2 b i (by simpa using h)

/-- Dropping inside a take. -/
theorem drop_take_eq {l : Str} {ss se : Nat} (h : ss ≤ se) :
    (l.take se).drop ss = (l.drop ss).take (se - ss) := by
  rw [List.take_drop, Nat.add_sub_cancel' h]

/-- Containment is preserved by surrounding context. -/
theorem containsCI_append {a win b term : Str}
    (h : containsCI win term = true) :
    containsCI (a ++ win ++ b) term = true := by
  unfold containsCI ciFind at h ⊢
  rcases Option.isSome_iff_exists.mp h with ⟨i, hi⟩
  have hocc := isPrefixOf_drop_of_findSub hi
  have hib := findSub_le_length hi
  apply findSub_isSome_of_isPrefixOf_drop ((lowerS a).length + i)
  have hexp : lowerS (a ++ win ++ b) = lowerS a ++ (lowerS win ++ lowerS b) := by
    simp [lowerS]
  rw [hexp, drop_append_length, drop_append_le _ _ _ hib]
  exact isPrefixOf_append hocc

/-- An element not satisfying the predicate survives `dropWhile`. -/
theorem mem_dropWhile_of_not {p : Char → Bool} {x : Char} {l : Str}
    (hx : x ∈ l) (hpx : p x = false) : x ∈ l.dropWhile p := by
  induction l with
  | nil => exact absurd hx (List.not_mem_nil x)
  | cons c rest ih =>
    by_cases hc : p c = true
    · rw [List.dropWhile_cons, if_pos hc]
      rcases List.mem_cons.mp hx with rfl | hx
      · exact absurd hc (by simp [hpx])
      · exact ih hx
    · rw [List.dropWhile_cons, if_neg hc]
      exact hx

/-- A non-whitespace member survives `strip`. -/
theorem mem_strip_of_not_ws {x : Char} {l : Str} (hx : x ∈ l)
    (hpx : isWs x = false) : x ∈ strip l := by
  unfold strip
  rw [List.mem_reverse]
  apply mem_dropWhile_of_not _ hpx
  rw [List.mem_reverse]
  exact mem_dropWhile_of_not hx hpx

/-- Highlighting a string that contains the term emits a `*` marker. -/
theorem star_mem_highlightFuel {term : Str} (hterm : term ≠ []) :
    ∀ (fuel : Nat) {s : Str}, s.length ≤ fuel → containsCI s term = true →
      '*' ∈ highlightFuel term fuel s := by
  intro fuel
  induction fuel with
  | zero =>
    intro s hlen hc
    have hs : s = [] := List.length_eq_zero.mp (Nat.le_zero.mp hlen)
    subst hs
    exact absurd hc (by simp [containsCI_nil hterm])
  | succ f ih =>
    intro s hlen hc
    match s with
    | [] => exact absurd hc (by simp [containsCI_nil hterm])
    | c :: rest =>
      by_cases hp : (lowerS term).isPrefixOf (lowerS (c :: rest)) = true
      · simp only [highlightFuel]
        rw [if_pos hp]
        simp
      · simp only [highlightFuel]
        rw [if_neg hp]
        refine List.mem_cons_of_mem c (ih ?_ ?_)
        · simpa using hlen
        · refine containsCI_of_cons hc ?_
          cases hb : (lowerS term).isPrefixOf (lowerS (c :: rest))
          · rfl
          · exact absurd hb hp

/-- The value of `generate_snippet` when a match is found, spelled out. -/
theorem generate_snippet_match_eq {text term : Str} {cl i : Nat}
    (htext : text ≠ []) (hterm : term ≠ [])
    (hi : ciFind text term = some i) :
    generate_snippet text term cl =
      strip (highlightAll term
        (if min text.length (i + term.length + cl) < text.length
         then (if 0 < i - cl
               then dots ++ (text.take (min text.length (i + term.length + cl))).drop (i - cl)
               else (text.take (min text.length (i + term.length + cl))).drop (i - cl)) ++ dots
         else (if 0 < i - cl
               then dots ++ (text.take (min text.length (i + term.length + cl))).drop (i - cl)
               else (text.take (min text.length (i + term.length + cl))).drop (i - cl)))) := by
  unfold generate_snippet
  rw [if_neg (not_or.mpr ⟨htext, hterm⟩), hi]

/-- The match branch of `generate_snippet` never returns the empty string:
the window always contains the matched occurrence, so highlighting emits a
`*` marker, which `strip` keeps. -/
theorem generate_snippet_ne_nil (cl : Nat) {text term : Str}
    (htext : text ≠ []) (hterm : term ≠ [])
    (hc : containsCI text term = true) :
    generate_snippet text term cl ≠ [] := by
  rcases Option.isSome_iff_exists.mp (by simpa [containsCI] using hc) with ⟨i, hi⟩
  have hocc : (lowerS term).isPrefixOf ((lowerS text).drop i) = true :=
    isPrefixOf_drop_of_findSub hi
  have hlenL : (lowerS text).length = text.length := by simp [lowerS]
  have htermlen : (lowerS term).length = term.length := by simp [lowerS]
  have hterm_le : i + term.length ≤ text.length := by
    have hl := length_le_of_isPrefixOf hocc
    rw [htermlen, List.length_drop, hlenL] at hl
    have hib := findSub_le_length hi
    rw [hlenL] at hib
    omega
  have hi_se : i + term.length ≤ min text.length (i + term.length + cl) :=
    Nat.le_min.mpr ⟨hterm_le, by omega⟩
  have hwin : containsCI
      ((text.take (min text.length (i + term.length + cl))).drop (i - cl))
      term = true := by
    unfold containsCI ciFind
    have hmapdt : lowerS ((text.take (min text.length (i + term.length + cl))).drop (i - cl)) =
        (((lowerS text).take (min text.length (i + term.length + cl))).drop (i - cl)) := by
      simp [lowerS]
    rw [hmapdt]
    apply findSub_isSome_of_isPrefixOf_drop (i - (i - cl))
    rw [List.drop_drop, show (i - cl) + (i - (i - cl)) = i from by omega,
        drop_take_eq (by omega)]
    exact isPrefixOf_take hocc (by rw [htermlen]; omega)
  have main : ∀ (x : Str), containsCI x term = true →
      strip (highlightAll term x) ≠ [] := by
    intro x hx hnil
    have hstar : '*' ∈ strip (highlightAll term x) :=
      mem_strip_of_not_ws
        (star_mem_highlightFuel hterm x.length le_rfl hx) (by decide)
    rw [hnil] at hstar
    exact absurd hstar (List.not_mem_nil _)
  rw [generate_snippet_match_eq htext hterm hi]
  have h1 := containsCI_append (a := dots) (b := dots) hwin
  have h2 : containsCI
      ((text.take (min text.length (i + term.length + cl))).drop (i - cl) ++ dots)
      term = true := by
    simpa using containsCI_append (a := []) (b := dots) hwin
  have h3 : containsCI
      (dots ++ (text.take (min text.length (i + term.length + cl))).drop (i - cl))
      term = true := by
    simpa using containsCI_append (a := dots) (b := []) hwin
  split
  · split
    · exact main _ h1
    · exact main _ h2
  · split
    · exact main _ h3
    · exact main _ hwin

/-- Unpacking a successful Python-side field test. -/
theorem pyFieldMatch_some_true {s t : Str} (h : pyFieldMatch (some s) t = true) :
    s ≠ [] ∧ containsCI s t = true := by
  simp only [pyFieldMatch, Bool.and_eq_true] at h
  refine ⟨fun hnil => ?_, h.2⟩
  rw [hnil] at h
  simp [List.isEmpty] at h

/-- Insertion only adds the inserted element. -/
theorem mem_of_mem_insertKeyDesc {β : Type} [LinearOrder β] {key : Material → β}
    {m y : Material} {l : List Material}
    (h : y ∈ insertKeyDesc key m l) : y = m ∨ y ∈ l := by
  induction l with
  | nil => simpa [insertKeyDesc] using h
  | cons x xs ih =>
    simp only [insertKeyDesc] at h
    split at h
    · rcases List.mem_cons.mp h with rfl | h
      · exact Or.inr (List.mem_cons_self _ _)
      · rcases ih h with rfl | h
        · exact Or.inl rfl
        · exact Or.inr (List.mem_cons_of_mem _ h)
    · rcases List.mem_cons.mp h with rfl | h
      · exact Or.inl rfl
      · exact Or.inr h

/-- Sorting does not invent elements. -/
theorem mem_of_mem_sortKeyDesc {β : Type} [LinearOrder β] {key : Material → β}
    {y : Material} : ∀ {l : List Material}, y ∈ sortKeyDesc key l → y ∈ l := by
  intro l
  induction l with
  | nil => intro h; exact h
  | cons x xs ih =>
    intro h
    simp only [sortKeyDesc] at h
    rcases mem_of_mem_insertKeyDesc h with rfl | h
    · exact List.mem_cons_self _ _
    · exact List.mem_cons_of_mem _ (ih h)

/-- Inserting into a list sorted by descending key keeps it sorted. -/
theorem sorted_insertKeyDesc {β : Type} [LinearOrder β] (key : Material → β)
    (m : Material) {l : List Material}
    (h : l.Sorted (fun a b => key b ≤ key a)) :
    (insertKeyDesc key m l).Sorted (fun a b => key b ≤ key a) := by
  induction l with
  | nil => simp [insertKeyDesc]
  | cons x xs ih =>
    rw [List.sorted_cons] at h
    simp only [insertKeyDesc]
    split
    · next hle =>
        rw [List.sorted_cons]
        refine ⟨?_, ih h.2⟩
        intro b hb
        rcases mem_of_mem_insertKeyDesc hb with rfl | hb
        · exact hle
        · exact h.1 b hb
    · next hgt =>
        rw [List.sorted_cons]
        refine ⟨?_, List.sorted_cons.mpr h⟩
        intro b hb
        rcases List.mem_cons.mp hb with rfl | hb
        · exact le_of_not_le hgt
        · exact le_trans (h.1 b hb) (le_of_not_le hgt)

/-- The insertion sort produces a list sorted by descending key. -/
theorem sorted_sortKeyDesc {β : Type} [LinearOrder β] (key : Material → β) :
    ∀ (l : List Material),
      (sortKeyDesc key l).Sorted (fun a b => key b ≤ key a)
  | [] => by simp [sortKeyDesc]
  | x :: xs => by
      simp only [sortKeyDesc]
      exact sorted_insertKeyDesc key x (sorted_sortKeyDesc key xs)

/-- The relevance-ranked candidate list is sorted by descending score. -/
theorem sorted_rankedMaterials (db : List Material) (t : Str)
    (course_id : Option Nat) (material_type : Option Str) :
    (rankedMaterials db t course_id material_type).Sorted
      (fun a b => relevance_score b t ≤ relevance_score a t) :=
  sorted_sortKeyDesc _ _

/-- C2: (1) every returned result is the projection `toSearchResult` of some
stored material at the trimmed query; (2) the projection's `match_type` and
snippet follow the exclusive ordered first-match-wins walk — title, then
description, then filename, then body text — with the snippet generated from
the matched field using context length 50 for title and filename and 100 for
description and body text. -/
theorem search_results_match_walk :
    (∀ (db : List Material) (query : Str) (limit : Nat)
       (course_id : Option Nat) (material_type : Option Str) (sort_by : Str)
       (r : SearchResult),
       r ∈ search_materials db query limit course_id material_type sort_by →
       ∃ m, m ∈ db ∧ r = toSearchResult m (strip query)) ∧
    (∀ (m : Material) (t : Str), t ≠ [] →
      (pyFieldMatch (some m.title) t = true →
        (toSearchResult m t).match_type = "title".toList ∧
        (toSearchResult m t).snippet = generate_snippet m.title t 50) ∧
      (∀ d, pyFieldMatch (some m.title) t = false → m.description = some d →
        pyFieldMatch m.description t = true →
        (toSearchResult m t).match_type = "description".toList ∧
        (toSearchResult m t).snippet = generate_snippet d t 100) ∧
      (∀ fn, pyFieldMatch (some m.title) t = false →
        pyFieldMatch m.description t = false → m.file_name = some fn →
        pyFieldMatch m.file_name t = true →
        (toSearchResult m t).match_type = "filename".toList ∧
        (toSearchResult m t).snippet = generate_snippet fn t 50) ∧
      (∀ ct, pyFieldMatch (some m.title) t = false →
        pyFieldMatch m.description t = false →
        pyFieldMatch m.file_name t = false → m.file_content_text = some ct →
        pyFieldMatch m.file_content_text t = true →
        (toSearchResult m t).match_type = "content".toList ∧
        (toSearchResult m t).snippet = generate_snippet ct t 100)) := by
  constructor
  · intro db query limit course_id material_type sort_by r hr
    simp only [search_materials] at hr
    split at hr
    · exact absurd hr (List.not_mem_nil r)
    · rcases List.mem_map.mp hr with ⟨m, hm, rfl⟩
      refine ⟨m, ?_, rfl⟩
      have hm2 := List.mem_of_mem_take hm
      have hm3 : m ∈ filteredMaterials db (strip query) course_id material_type := by
        split at hm2
        · exact mem_of_mem_sortKeyDesc hm2
        · split at hm2
          · exact mem_of_mem_sortKeyDesc hm2
          · split at hm2
            · exact mem_of_mem_sortKeyDesc hm2
            · exact hm2
      exact (List.mem_filter.mp hm3).1
  · intro m t ht
    refine ⟨?_, ?_, ?_, ?_⟩
    · intro htitle
      obtain ⟨hne, hcon⟩ := pyFieldMatch_some_true htitle
      have hsnip := generate_snippet_ne_nil 50 hne ht hcon
      exact ⟨by simp [toSearchResult, walkPair, htitle],
             by simp [toSearchResult, walkPair, htitle, hsnip]⟩
    · intro d htitle hd hdesc
      have hds : pyFieldMatch (some d) t = true := hd ▸ hdesc
      obtain ⟨hne, hcon⟩ := pyFieldMatch_some_true hds
      have hsnip := generate_snippet_ne_nil 100 hne ht hcon
      exact ⟨by simp [toSearchResult, walkPair, htitle, hd, hds],
             by simp [toSearchResult, walkPair, htitle, hd, hds, hsnip]⟩
    · intro fn htitle hdesc hfn hfname
      have hfs : pyFieldMatch (some fn) t = true := hfn ▸ hfname
      obtain ⟨hne, hcon⟩ := pyFieldMatch_some_true hfs
      have hsnip := generate_snippet_ne_nil 50 hne ht hcon
      exact ⟨by simp [toSearchResult, walkPair, htitle, hdesc, hfn, hfs],
             by simp [toSearchResult, walkPair, htitle, hdesc, hfn, hfs, hsnip]⟩
    · intro ct htitle hdesc hfname hct hcontent
      have hcs : pyFieldMatch (some ct) t = true := hct ▸ hcontent
      obtain ⟨hne, hcon⟩ := pyFieldMatch_some_true hcs
      have hsnip := generate_snippet_ne_nil 100 hne ht hcon
      exact ⟨by simp [toSearchResult, walkPair, htitle, hdesc, hfname, hct, hcs],
             by simp [toSearchResult, walkPair, htitle, hdesc, hfname, hct, hcs, hsnip]⟩

/-- C2 witness: the walk at a material whose title contains the term. -/
theorem search_results_match_walk_witness :
    (toSearchResult exM1 ("calculus".toList)).match_type = "title".toList ∧
    (toSearchResult exM1 ("calculus".toList)).snippet =
      generate_snippet exM1.title ("calculus".toList) 50 :=
  (search_results_match_walk.2 exM1 ("calculus".toList) (by decide)).1 (by decide)

/-- C3: under `sort_by = relevance`, (1) the ranked candidates are ordered by
descending `relevance_score` (the sum of the independent per-field weights
10/5/3/1); (2) consequently a material whose only match is in the body text
(score 1) never appears strictly before a material whose title matches
(score ≥ 10); (3) `search_materials` returns exactly the projection of the
first `limit` ranked candidates. -/
theorem relevance_ranking :
    (∀ (db : List Material) (t : Str) (course_id : Option Nat)
       (material_type : Option Str),
       (rankedMaterials db t course_id material_type).Sorted
         (fun a b => relevance_score b t ≤ relevance_score a t)) ∧
    (∀ (db : List Material) (t : Str) (course_id : Option Nat)
       (material_type : Option Str) (i j : Nat) (hij : i < j)
       (hj : j < (rankedMaterials db t course_id material_type).length),
       ilikeContains (some ((rankedMaterials db t course_id material_type).get
         ⟨i, Nat.lt_trans hij hj⟩).title) t = false →
       ilikeContains ((rankedMaterials db t course_id material_type).get
         ⟨i, Nat.lt_trans hij hj⟩).description t = false →
       ilikeContains ((rankedMaterials db t course_id material_type).get
         ⟨i, Nat.lt_trans hij hj⟩).file_name t = false →
       ilikeContains ((rankedMaterials db t course_id material_type).get
         ⟨i, Nat.lt_trans hij hj⟩).file_content_text t = true →
       ilikeContains (some ((rankedMaterials db t course_id material_type).get
         ⟨j, hj⟩).title) t = true → False) ∧
    (∀ (db : List Material) (query : Str) (limit : Nat)
       (course_id : Option Nat) (material_type : Option Str),
       strip query ≠ [] →
       search_materials db query limit course_id material_type
           ("relevance".toList) =
         ((rankedMaterials db (strip query) course_id material_type).take
             limit).map (fun m => toSearchResult m (strip query))) := by
  refine ⟨fun db t c mt => sorted_rankedMaterials db t c mt, ?_, ?_⟩
  · intro db t course_id material_type i j hij hj h1 h2 h3 h4 h5
    have hpw := List.pairwise_iff_get.mp
      (sorted_rankedMaterials db t course_id material_type)
    have hrel := hpw ⟨i, Nat.lt_trans hij hj⟩ ⟨j, hj⟩ (Fin.mk_lt_mk.mpr hij)
    have hscorei : relevance_score
        ((rankedMaterials db t course_id material_type).get
          ⟨i, Nat.lt_trans hij hj⟩) t = 1 := by
      unfold relevance_score
      rw [if_neg (fun hx => Bool.false_ne_true (h1 ▸ hx)),
          if_neg (fun hx => Bool.false_ne_true (h2 ▸ hx)),
          if_neg (fun hx => Bool.false_ne_true (h3 ▸ hx)), if_pos h4]
    have hscorej : 10 ≤ relevance_score
        ((rankedMaterials db t course_id material_type).get ⟨j, hj⟩) t := by
      unfold relevance_score
      rw [if_pos h5]
      split_ifs <;> omega
    rw [hscorei] at hrel
    omega
  · intro db query limit course_id material_type hq
    simp only [search_materials]
    rw [if_neg (by rintro (rfl | h); exacts [hq rfl, hq h]),
        if_neg (by decide), if_neg (by decide)]
    simp

/-- C3 witness: the pipeline equality at a concrete store and query. -/
theorem relevance_ranking_witness :
    search_materials [exM3, exM1] ("calculus".toList) 5 none none
        ("relevance".toList) =
      ((rankedMaterials [exM3, exM1] (strip ("calculus".toList)) none none).take
          5).map (fun m => toSearchResult m (strip ("calculus".toList))) :=
  relevance_ranking.2.2 [exM3, exM1] ("calculus".toList) 5 none none (by decide)
